import Mathlib

/-!
Shallow embedding of the ABCNN-1 repository: the forward pass of
`ABCNN1Block` (src/model/blocks/abcnn1.py) and the training loop and batch
processor (train.py).  Tensors are nested lists of rationals.  The
attention, convolution and width-pooling modules are injected into the
block, exactly as in the source constructor; global average pooling
(`AllAP`) and dropout are modelled explicitly.
-/

deriving instance DecidableEq for Except

namespace ABCNN

/-- Rank-1 tensor: one feature vector. -/
abbrev Tensor1 := List ℚ

/-- Rank-2 tensor: a sequence of feature vectors. -/
abbrev Tensor2 := List Tensor1

/-- Rank-3 tensor: channels of sequences. -/
abbrev Tensor3 := List Tensor2

/-- Rank-4 tensor: a batch of channelled sequences. -/
abbrev Tensor4 := List Tensor3

/-- Shape check for a rank-2 tensor: `a` rows, each of length `b`. -/
def hasShape2 (t : Tensor2) (a b : Nat) : Bool :=
  t.length == a && t.all (fun r => r.length == b)

/-- Shape check for a rank-4 tensor: dimensions `(a, b, c, d)`. -/
def hasShape4 (t : Tensor4) (a b c d : Nat) : Bool :=
  t.length == a && t.all (fun p =>
    p.length == b && p.all (fun m =>
      m.length == c && m.all (fun r => r.length == d)))

/-- Dot product of two feature vectors (over the common length). -/
def dotQ (u v : Tensor1) : ℚ :=
  ((u.zip v).map (fun p => p.1 * p.2)).sum

/-- Row of a rank-2 tensor at a possibly out-of-range integer index,
    with zero padding represented by the empty row. -/
def rowAt (m : Tensor2) (i : Int) : Tensor1 :=
  if 0 ≤ i then m.getD i.toNat [] else []

/-- Modelled from the spec: the cross-sentence attention feature matrix
    (the `ABCNN1Attention` module is repository code not under src/).
    Entry `(i, c)` is the similarity-weighted combination of the positions
    of the other sentence, similarity being the dot product. -/
def matAttn (m1 m2 : Tensor2) : Tensor2 :=
  m1.map (fun r1 =>
    (List.range r1.length).map (fun j =>
      (m2.map (fun r2 => dotQ r1 r2 * r2.getD j 0)).sum))

/-- Modelled from the spec: the attention layer.  Each output has channel 0
    equal to the original input and channel 1 equal to the attention
    feature matrix of shape `(max_length, input_size)`. -/
def attnModel (x1 x2 : Tensor4) : Tensor4 × Tensor4 :=
  ((x1.zip x2).map (fun p =>
      [p.1.headD [], matAttn (p.1.headD []) (p.2.headD [])]),
   (x1.zip x2).map (fun p =>
      [p.2.headD [], matAttn (p.2.headD []) (p.1.headD [])]))

/-- Modelled from the spec: the width-`w` wide (full) convolution over a
    two-channel input (the `Convolution` module is repository code not
    under src/).  Kernel `K` lists, per output feature, per tap, per input
    channel, one weight vector; the output sequence has length
    `L + w - 1` and one channel. -/
def convModel (w : Nat) (K : List (List (List Tensor1))) (x : Tensor4) : Tensor4 :=
  x.map (fun p =>
    let L := (p.headD []).length
    [(List.range (L + w - 1)).map (fun (i : Nat) =>
      K.map (fun ko =>
        ((List.range w).map (fun (j : Nat) =>
          ((List.range p.length).map (fun ch =>
            dotQ ((ko.getD j []).getD ch [])
              (rowAt (p.getD ch []) ((i : Int) + (j : Int) + 1 - (w : Int))))).sum)).sum))])

/-- Modelled from the spec: w-ap average pooling (the `WidthAP` module is
    repository code not under src/): every window of `w` consecutive rows
    is averaged, restoring the sequence length from `L + w - 1` to `L`. -/
def poolModel (w : Nat) (x : Tensor4) : Tensor4 :=
  x.map (fun p =>
    p.map (fun m =>
      (List.range (m.length + 1 - w)).map (fun i =>
        (List.range (m.headD []).length).map (fun c =>
          (((List.range w).map (fun j => (m.getD (i + j) []).getD c 0)).sum) / (w : ℚ)))))

/-- Modelled from the spec: `AllAP` global average pooling
    (model/pooling/allap.py is repository code not under src/): a
    `(batch, 1, len, features)` tensor becomes `(batch, features)`, each
    output feature being the average of that feature over all positions. -/
def allAP (t : Tensor4) : Tensor2 :=
  t.map (fun p =>
    let m := p.headD []
    (List.range (m.headD []).length).map (fun j =>
      ((m.map (fun row => row.getD j 0)).sum) / (m.length : ℚ)))

/-- The ABCNN-1 block: the attention, convolution and width-pooling
    modules are injected, exactly as in the source constructor
    (`__init__(self, attn, conv, pool, dropout_rate)`). -/
structure ABCNN1Block where
  attn : Tensor4 → Tensor4 → Tensor4 × Tensor4
  conv : Tensor4 → Tensor4
  pool : Tensor4 → Tensor4

/-- The four tensors returned by `ABCNN1Block.forward`. -/
structure ForwardOut where
  w1 : Tensor4
  w2 : Tensor4
  a1 : Tensor2
  a2 : Tensor2

/-- The forward pass of the block, line by line from the source:
    attention, then shared-weight convolution of both branches, then
    width pooling, then dropout on `w1, w2`, and global pooling of the
    pre-dropout convolution outputs into `a1, a2`.  The two dropout
    applications are represented by the two mask functions `d1, d2`
    (one realization of the dropout module's random state each). -/
def ABCNN1Block.forward (blk : ABCNN1Block) (d1 d2 : Tensor4 → Tensor4)
    (x1 x2 : Tensor4) : ForwardOut :=
  let o := blk.attn x1 x2
  let c1 := blk.conv o.1
  let c2 := blk.conv o.2
  let w1 := blk.pool c1
  let w2 := blk.pool c2
  let w1d := d1 w1
  let w2d := d2 w2
  let a1 := allAP c1
  let a2 := allAP c2
  ⟨w1d, w2d, a1, a2⟩

/-- C1: for every pair of inputs and every pair of dropout random states,
    running `ABCNN1Block.forward` twice with different dropout masks
    yields identical global-pooled outputs `a1, a2` (they are computed
    from the pre-dropout convolution outputs `c1, c2`), while `w1, w2`
    may differ between the two runs. -/
theorem forward_allap_dropout_invariant (blk : ABCNN1Block)
    (d1 d2 e1 e2 : Tensor4 → Tensor4) (x1 x2 : Tensor4) :
    (blk.forward d1 d2 x1 x2).a1 = (blk.forward e1 e2 x1 x2).a1 ∧
    (blk.forward d1 d2 x1 x2).a2 = (blk.forward e1 e2 x1 x2).a2 ∧
    (blk.forward d1 d2 x1 x2).a1 = allAP (blk.conv (blk.attn x1 x2).1) ∧
    (blk.forward d1 d2 x1 x2).a2 = allAP (blk.conv (blk.attn x1 x2).2) ∧
    ∃ (blk0 : ABCNN1Block) (f1 f2 g1 g2 : Tensor4 → Tensor4) (y1 y2 : Tensor4),
      (blk0.forward f1 f2 y1 y2).w1 ≠ (blk0.forward g1 g2 y1 y2).w1 := by
  refine ⟨rfl, rfl, rfl, rfl,
    ⟨fun a _ => (a, a), id, id⟩, id, id, (fun _ => []), (fun _ => []),
    [[[[1]]]], [[[[1]]]], ?_⟩
  simp [ABCNN1Block.forward]

/-- Propositional form of `hasShape2`. -/
def Shape2 (t : Tensor2) (a b : Nat) : Prop :=
  t.length = a ∧ ∀ r ∈ t, r.length = b

/-- Propositional form of `hasShape4`. -/
def Shape4 (t : Tensor4) (a b c d : Nat) : Prop :=
  t.length = a ∧ ∀ p ∈ t, p.length = b ∧ ∀ m ∈ p, m.length = c ∧ ∀ r ∈ m, r.length = d

theorem hasShape2_iff {t : Tensor2} {a b : Nat} :
    hasShape2 t a b = true ↔ Shape2 t a b := by
  simp [hasShape2, Shape2, List.all_eq_true]

theorem hasShape4_iff {t : Tensor4} {a b c d : Nat} :
    hasShape4 t a b c d = true ↔ Shape4 t a b c d := by
  simp [hasShape4, Shape4, List.all_eq_true]

theorem matAttn_shape {m1 m2 : Tensor2} {L C : Nat}
    (hlen : m1.length = L) (hrow : ∀ r ∈ m1, r.length = C) :
    (matAttn m1 m2).length = L ∧ ∀ r ∈ matAttn m1 m2, r.length = C := by
  constructor
  · simp [matAttn, hlen]
  · intro r hr
    simp only [matAttn, List.mem_map] at hr
    obtain ⟨r1, hr1, rfl⟩ := hr
    simp [hrow r1 hr1]

theorem attnModel_shape {x1 x2 : Tensor4} {b L C : Nat}
    (h1 : Shape4 x1 b 1 L C) (h2 : Shape4 x2 b 1 L C) :
    Shape4 (attnModel x1 x2).1 b 2 L C ∧ Shape4 (attnModel x1 x2).2 b 2 L C := by
  have hplane : ∀ {x : Tensor4}, Shape4 x b 1 L C → ∀ p ∈ x,
      (p.headD []).length = L ∧ ∀ r ∈ p.headD [], r.length = C := by
    intro x hx p hp
    obtain ⟨m, rfl⟩ := List.length_eq_one.mp (hx.2 p hp).1
    exact ⟨((hx.2 _ hp).2 m (by simp)).1, ((hx.2 _ hp).2 m (by simp)).2⟩
  have hzip : (x1.zip x2).length = b := by
    rw [List.length_zip, h1.1, h2.1, Nat.min_self]
  constructor <;>
  · refine ⟨by simp [attnModel, hzip], ?_⟩
    intro p hp
    simp only [attnModel, List.mem_map] at hp
    obtain ⟨q, hq, rfl⟩ := hp
    have hq1 := hplane h1 q.1 (List.of_mem_zip hq).1
    have hq2 := hplane h2 q.2 (List.of_mem_zip hq).2
    refine ⟨rfl, ?_⟩
    intro m hm
    simp only [List.mem_cons, List.mem_singleton] at hm
    rcases hm with rfl | hm
    · first
      | exact ⟨hq1.1, hq1.2⟩
      | exact ⟨hq2.1, hq2.2⟩
    · rcases hm with rfl | hm
      · first
        | exact matAttn_shape hq1.1 hq1.2
        | exact matAttn_shape hq2.1 hq2.2
      · cases hm

theorem convModel_shape {x : Tensor4} {b L C : Nat} (w : Nat)
    (K : List (List (List Tensor1))) (hx : Shape4 x b 2 L C) :
    Shape4 (convModel w K x) b 1 (L + w - 1) K.length := by
  refine ⟨by simp [convModel, hx.1], ?_⟩
  intro p hp
  simp only [convModel, List.mem_map] at hp
  obtain ⟨q, hq, rfl⟩ := hp
  have hq2 : q.length = 2 := (hx.2 q hq).1
  have hhead : (q.headD []).length = L := by
    rcases q with _ | ⟨m0, t⟩
    · simp at hq2
    · exact ((hx.2 _ hq).2 m0 (by simp)).1
  rw [List.headD_eq_head?] at hhead
  refine ⟨rfl, ?_⟩
  intro m hm
  simp only [List.mem_singleton] at hm
  subst hm
  refine ⟨by simp [hhead], ?_⟩
  intro r hr
  simp only [List.mem_map] at hr
  obtain ⟨i, _, rfl⟩ := hr
  simp

theorem poolModel_shape {x : Tensor4} {b n F : Nat} (w : Nat)
    (hx : Shape4 x b 1 n F) (hn : 0 < n) :
    Shape4 (poolModel w x) b 1 (n + 1 - w) F := by
  refine ⟨by simp [poolModel, hx.1], ?_⟩
  intro p hp
  simp only [poolModel, List.mem_map] at hp
  obtain ⟨q, hq, rfl⟩ := hp
  refine ⟨by simp [(hx.2 q hq).1], ?_⟩
  intro m hm
  simp only [List.mem_map] at hm
  obtain ⟨m0, hm0, rfl⟩ := hm
  have hm0n : m0.length = n := ((hx.2 q hq).2 m0 hm0).1
  have hhead : (m0.headD []).length = F := by
    rcases m0 with _ | ⟨r0, t⟩
    · rw [List.length_nil] at hm0n; omega
    · exact ((hx.2 q hq).2 _ hm0).2 r0 (by simp)
  rw [List.headD_eq_head?] at hhead
  refine ⟨by simp [hm0n], ?_⟩
  intro r hr
  simp only [List.mem_map] at hr
  obtain ⟨i, _, rfl⟩ := hr
  simp [hhead]

theorem allAP_shape {t : Tensor4} {b n F : Nat}
    (ht : Shape4 t b 1 n F) (hn : 0 < n) :
    Shape2 (allAP t) b F := by
  refine ⟨by simp [allAP, ht.1], ?_⟩
  intro r hr
  simp only [allAP, List.mem_map] at hr
  obtain ⟨p, hp, rfl⟩ := hr
  obtain ⟨m, rfl⟩ := List.length_eq_one.mp (ht.2 p hp).1
  have hmn : m.length = n := ((ht.2 _ hp).2 m (by simp)).1
  have hhead : (m.headD []).length = F := by
    rcases m with _ | ⟨r0, t0⟩
    · rw [List.length_nil] at hmn; omega
    · exact ((ht.2 _ hp).2 (r0 :: t0) (by simp)).2 r0 (by simp)
  rw [List.headD_eq_head?] at hhead
  simp [hhead]

/-- C4: for every input pair `x1, x2` of identical shape
    `(batch, 1, max_length, input_size)`, `ABCNN1Block.forward` returns
    `w1, w2` of shape `(batch, 1, max_length, output_size)` and `a1, a2`
    of shape `(batch, output_size)`; the sequence length `max_length` is
    preserved through the attention, convolution and width-pooling steps,
    whose per-stage shape contracts (taken from the spec, the component
    modules being outside src/) are the hypotheses. -/
theorem forward_shape_contract (blk : ABCNN1Block) (d1 d2 : Tensor4 → Tensor4)
    (x1 x2 : Tensor4) (b L C F w : Nat) (hL : 0 < L) (hw : 0 < w)
    (hx1 : hasShape4 x1 b 1 L C = true) (hx2 : hasShape4 x2 b 1 L C = true)
    (hattn : ∀ y1 y2, hasShape4 y1 b 1 L C = true → hasShape4 y2 b 1 L C = true →
      hasShape4 (blk.attn y1 y2).1 b 2 L C = true ∧
      hasShape4 (blk.attn y1 y2).2 b 2 L C = true)
    (hconv : ∀ y, hasShape4 y b 2 L C = true →
      hasShape4 (blk.conv y) b 1 (L + w - 1) F = true)
    (hpool : ∀ y, hasShape4 y b 1 (L + w - 1) F = true →
      hasShape4 (blk.pool y) b 1 L F = true)
    (hd1 : ∀ y, hasShape4 y b 1 L F = true → hasShape4 (d1 y) b 1 L F = true)
    (hd2 : ∀ y, hasShape4 y b 1 L F = true → hasShape4 (d2 y) b 1 L F = true) :
    hasShape4 (blk.forward d1 d2 x1 x2).w1 b 1 L F = true ∧
    hasShape4 (blk.forward d1 d2 x1 x2).w2 b 1 L F = true ∧
    hasShape2 (blk.forward d1 d2 x1 x2).a1 b F = true ∧
    hasShape2 (blk.forward d1 d2 x1 x2).a2 b F = true := by
  obtain ⟨ho1, ho2⟩ := hattn x1 x2 hx1 hx2
  have hc1 := hconv _ ho1
  have hc2 := hconv _ ho2
  have hLw : 0 < L + w - 1 := by omega
  refine ⟨hd1 _ (hpool _ hc1), hd2 _ (hpool _ hc2), ?_, ?_⟩
  · exact hasShape2_iff.mpr (allAP_shape (hasShape4_iff.mp hc1) hLw)
  · exact hasShape2_iff.mpr (allAP_shape (hasShape4_iff.mp hc2) hLw)

/-- Concrete kernel for the witness: one output feature, width 2, two
    input channels, one input feature, all weights 1. -/
def kernelW : List (List (List Tensor1)) := [[[[1], [1]], [[1], [1]]]]

/-- Concrete block for the witness, built from the spec-modelled
    attention, convolution and width-pooling components. -/
def blockW : ABCNN1Block := ⟨attnModel, convModel 2 kernelW, poolModel 2⟩

theorem forward_shape_contract_witness :
    (0 : Nat) < 1 ∧ (0 : Nat) < 2 ∧
    hasShape4 [[[[(1 : ℚ)]]]] 1 1 1 1 = true ∧
    hasShape4 [[[[(2 : ℚ)]]]] 1 1 1 1 = true ∧
    (hasShape4 (blockW.forward id id [[[[(1 : ℚ)]]]] [[[[(2 : ℚ)]]]]).w1 1 1 1 1 = true ∧
     hasShape4 (blockW.forward id id [[[[(1 : ℚ)]]]] [[[[(2 : ℚ)]]]]).w2 1 1 1 1 = true ∧
     hasShape2 (blockW.forward id id [[[[(1 : ℚ)]]]] [[[[(2 : ℚ)]]]]).a1 1 1 = true ∧
     hasShape2 (blockW.forward id id [[[[(1 : ℚ)]]]] [[[[(2 : ℚ)]]]]).a2 1 1 = true) := by
  refine ⟨by decide, by decide, by decide, by decide, ?_⟩
  exact forward_shape_contract blockW id id _ _ 1 1 1 1 2
    (by decide) (by decide) (by decide) (by decide)
    (fun y1 y2 h1 h2 =>
      ⟨hasShape4_iff.mpr (attnModel_shape (hasShape4_iff.mp h1) (hasShape4_iff.mp h2)).1,
       hasShape4_iff.mpr (attnModel_shape (hasShape4_iff.mp h1) (hasShape4_iff.mp h2)).2⟩)
    (fun y hy => hasShape4_iff.mpr (convModel_shape 2 kernelW (hasShape4_iff.mp hy)))
    (fun y hy => hasShape4_iff.mpr (poolModel_shape 2 (hasShape4_iff.mp hy) (by omega)))
    (fun _ hy => hy) (fun _ hy => hy)

/-- Index of the first maximal entry of a score row, as
    `torch.argmax(scores, dim=1)` computes per example. -/
def argmaxIdx (l : List ℚ) : Nat :=
  (l.foldl
    (fun acc x =>
      if x > acc.2.2 then (acc.2.1, acc.2.1 + 1, x) else (acc.1, acc.2.1 + 1, acc.2.2))
    ((0 : Nat), (0 : Nat), l.headD 0)).1

/-- Count of positions where the true label is `i` and the prediction is `j`. -/
def pairCount (a p : List Nat) (i j : Nat) : Nat :=
  (a.zip p).countP (fun x => x.1 == i && x.2 == j)

/-- Model of `sklearn.metrics.accuracy_score`. -/
def accuracyScore (a p : List Nat) : ℚ :=
  ((a.zip p).countP (fun x => x.1 == x.2) : ℚ) / (a.length : ℚ)

/-- True positives of class `c`. -/
def classTP (a p : List Nat) (c : Nat) : Nat :=
  (a.zip p).countP (fun x => x.1 == c && x.2 == c)

/-- Per-class precision, zero when the class is never predicted
    (sklearn zero-division convention). -/
def classPrecision (a p : List Nat) (c : Nat) : ℚ :=
  (classTP a p c : ℚ) / (p.count c : ℚ)

/-- Per-class recall, zero when the class never occurs. -/
def classRecall (a p : List Nat) (c : Nat) : ℚ :=
  (classTP a p c : ℚ) / (a.count c : ℚ)

/-- Per-class F1, zero when precision and recall are both zero. -/
def classF1 (a p : List Nat) (c : Nat) : ℚ :=
  2 * classPrecision a p c * classRecall a p c /
    (classPrecision a p c + classRecall a p c)

/-- The labels observed in either array; the label space of this binary
    classifier is `{0, 1}` (predictions are argmax over two scores). -/
def obsLabels (a p : List Nat) : List Nat :=
  [0, 1].filter (fun c => a.contains c || p.contains c)

/-- Unweighted mean of a per-class metric over a label list. -/
def macroAvg (f : Nat → ℚ) (labels : List Nat) : ℚ :=
  (labels.map f).sum / (labels.length : ℚ)

/-- Model of `precision_score(actual, predicted, average="macro")`. -/
def precisionScore (a p : List Nat) : ℚ := macroAvg (classPrecision a p) (obsLabels a p)

/-- Model of `recall_score(actual, predicted, average="macro")`. -/
def recallScore (a p : List Nat) : ℚ := macroAvg (classRecall a p) (obsLabels a p)

/-- Model of `f1_score(actual, predicted, average="macro")`. -/
def f1Score (a p : List Nat) : ℚ := macroAvg (classF1 a p) (obsLabels a p)

/-- Model of `confusion_matrix(actual, predicted, labels=[0, 1])`: entry
    `(i, j)` counts examples with true label `i` and prediction `j`. -/
def confusionMatrix (a p : List Nat) : List (List Nat) :=
  [[pairCount a p 0 0, pairCount a p 0 1],
   [pairCount a p 1 0, pairCount a p 1 1]]

/-- External collaborators of `process_batches`: the model forward pass,
    the per-example loss function, and the effect on the model weights of
    one `zero_grad`; `backward`; `step` optimizer update. -/
structure PBEnv (μ φ : Type) where
  modelFn : μ → φ → List (List ℚ)
  lossFn : List (List ℚ) → List Nat → List ℚ
  optStep : μ → List (List ℚ) → List Nat → μ

/-- The evaluation metrics stored in the results dict of `process_batches`,
    in its key order. -/
structure Results where
  loss : ℚ
  accuracy : ℚ
  precision : ℚ
  recallQ : ℚ
  f1 : ℚ
deriving DecidableEq

/-- The mutable state of the batch loop of `process_batches`:
    the model, the running loss total, the accumulated true and predicted
    labels, and a count of optimizer updates performed. -/
structure PBState (μ : Type) where
  model : μ
  totalLoss : ℚ
  actual : List Nat
  predicted : List Nat
  optCalls : Nat

/-- One iteration of the batch loop of `process_batches`: forward pass,
    argmax predictions, label accumulation, loss accumulation, and — only
    when training — the backward pass and optimizer step. -/
def pbStep {μ φ : Type} (env : PBEnv μ φ) (training : Bool)
    (st : PBState μ) (batch : φ × List Nat) : PBState μ :=
  let scores := env.modelFn st.model batch.1
  let preds := scores.map argmaxIdx
  let batchLoss := (env.lossFn scores batch.2).sum
  { model := if training then env.optStep st.model scores batch.2 else st.model
    totalLoss := st.totalLoss + batchLoss
    actual := st.actual ++ batch.2
    predicted := st.predicted ++ preds
    optCalls := st.optCalls + (if training then 1 else 0) }

/-- The full batch loop, started from the initial state of
    `process_batches` (zero loss, empty label lists). -/
def pbRun {μ φ : Type} (env : PBEnv μ φ) (training : Bool) (m : μ)
    (batches : List (φ × List Nat)) : PBState μ :=
  batches.foldl (pbStep env training) ⟨m, 0, [], [], 0⟩

/-- The dataset size: the batches produced by the loader partition the
    dataset, so `len(dataset)` is the total number of targets. -/
def dsSize {φ : Type} (batches : List (φ × List Nat)) : Nat :=
  (batches.map (fun b => b.2.length)).sum

/-- The model the batch loop ends with, written as a direct recursion
    over the batches (identical to the model of the final fold state). -/
def pbModelEnd {μ φ : Type} (env : PBEnv μ φ) (training : Bool) :
    μ → List (φ × List Nat) → μ
  | m, [] => m
  | m, b :: bs =>
    pbModelEnd env training
      (if training then env.optStep m (env.modelFn m b.1) b.2 else m) bs

/-- The concatenation of the per-batch predicted labels, following the
    model as it evolves across the batches. -/
def pbPredList {μ φ : Type} (env : PBEnv μ φ) (training : Bool) :
    μ → List (φ × List Nat) → List Nat
  | _, [] => []
  | m, b :: bs =>
    (env.modelFn m b.1).map argmaxIdx ++
      pbPredList env training
        (if training then env.optStep m (env.modelFn m b.1) b.2 else m) bs

/-- The list of per-batch summed losses, following the model as it
    evolves across the batches. -/
def pbLossList {μ φ : Type} (env : PBEnv μ φ) (training : Bool) :
    μ → List (φ × List Nat) → List ℚ
  | _, [] => []
  | m, b :: bs =>
    (env.lossFn (env.modelFn m b.1) b.2).sum ::
      pbLossList env training
        (if training then env.optStep m (env.modelFn m b.1) b.2 else m) bs

/-- The value `process_batches` returns: the model is included exactly
    when `is_training` is true. -/
inductive PBReturn (μ : Type) where
  | trainOut (model : μ) (results : Results) (cm : List (List Nat))
  | evalOut (results : Results) (cm : List (List Nat))
deriving DecidableEq

/-- The results dict carried by either return form. -/
def PBReturn.results {μ : Type} : PBReturn μ → Results
  | .trainOut _ r _ => r
  | .evalOut r _ => r

/-- The confusion matrix carried by either return form. -/
def PBReturn.cm {μ : Type} : PBReturn μ → List (List Nat)
  | .trainOut _ _ c => c
  | .evalOut _ c => c

/-- The end-of-pass results dict: average loss, then the four metrics
    computed over the accumulated label lists. -/
def mkResults (totalLoss : ℚ) (n : Nat) (a p : List Nat) : Results :=
  ⟨totalLoss / (n : ℚ), accuracyScore a p, precisionScore a p,
   recallScore a p, f1Score a p⟩

/-- The whole of `process_batches`: run the batch loop, then divide the
    loss total by `len(dataset)` — on an empty dataset this division of
    the integer 0 by the integer 0 raises an uncaught `ZeroDivisionError`
    — then compute the metrics and the confusion matrix over the
    accumulated labels, and return with or without the model. -/
def processBatches {μ φ : Type} (env : PBEnv μ φ) (m : μ)
    (batches : List (φ × List Nat)) (training : Bool) :
    Except String (PBReturn μ) :=
  let st := pbRun env training m batches
  if dsSize batches = 0 then .error "ZeroDivisionError"
  else
    let results := mkResults st.totalLoss (dsSize batches) st.actual st.predicted
    let cm := confusionMatrix st.actual st.predicted
    if training then .ok (.trainOut st.model results cm)
    else .ok (.evalOut results cm)

theorem pbFold_spec {μ φ : Type} (env : PBEnv μ φ) (training : Bool) :
    ∀ (batches : List (φ × List Nat)) (st : PBState μ),
      batches.foldl (pbStep env training) st =
        ⟨pbModelEnd env training st.model batches,
         st.totalLoss + (pbLossList env training st.model batches).sum,
         st.actual ++ batches.flatMap (fun b => b.2),
         st.predicted ++ pbPredList env training st.model batches,
         st.optCalls + (if training then batches.length else 0)⟩ := by
  intro batches
  induction batches with
  | nil => intro st; simp [pbModelEnd, pbLossList, pbPredList]
  | cons b bs ih =>
    intro st
    rw [List.foldl_cons, ih]
    cases training
    all_goals
      simp [pbStep, pbModelEnd, pbLossList, pbPredList, PBState.mk.injEq,
        add_assoc, List.append_assoc]
    all_goals omega

theorem pbRun_spec {μ φ : Type} (env : PBEnv μ φ) (training : Bool) (m : μ)
    (batches : List (φ × List Nat)) :
    pbRun env training m batches =
      ⟨pbModelEnd env training m batches,
       (pbLossList env training m batches).sum,
       batches.flatMap (fun b => b.2),
       pbPredList env training m batches,
       if training then batches.length else 0⟩ := by
  rw [pbRun, pbFold_spec]
  simp

theorem pbModelEnd_eval {μ φ : Type} (env : PBEnv μ φ) :
    ∀ (batches : List (φ × List Nat)) (m : μ), pbModelEnd env false m batches = m := by
  intro batches
  induction batches with
  | nil => intro m; rfl
  | cons b bs ih => intro m; simp [pbModelEnd, ih]

theorem processBatches_eval_eq {μ φ : Type} (env : PBEnv μ φ) (m : μ)
    (batches : List (φ × List Nat)) (h : dsSize batches ≠ 0) :
    processBatches env m batches false =
      .ok (.evalOut
        (mkResults (pbLossList env false m batches).sum (dsSize batches)
          (batches.flatMap (fun b => b.2)) (pbPredList env false m batches))
        (confusionMatrix (batches.flatMap (fun b => b.2))
          (pbPredList env false m batches))) := by
  simp [processBatches, h, pbRun_spec]

theorem processBatches_train_eq {μ φ : Type} (env : PBEnv μ φ) (m : μ)
    (batches : List (φ × List Nat)) (h : dsSize batches ≠ 0) :
    processBatches env m batches true =
      .ok (.trainOut (pbModelEnd env true m batches)
        (mkResults (pbLossList env true m batches).sum (dsSize batches)
          (batches.flatMap (fun b => b.2)) (pbPredList env true m batches))
        (confusionMatrix (batches.flatMap (fun b => b.2))
          (pbPredList env true m batches))) := by
  simp [processBatches, h, pbRun_spec]

theorem processBatches_ok {μ φ : Type} (env : PBEnv μ φ) (m : μ)
    (batches : List (φ × List Nat)) (training : Bool) (h : dsSize batches ≠ 0) :
    ∃ out, processBatches env m batches training = .ok out ∧
      out.results = mkResults (pbLossList env training m batches).sum (dsSize batches)
        (batches.flatMap (fun b => b.2)) (pbPredList env training m batches) ∧
      out.cm = confusionMatrix (batches.flatMap (fun b => b.2))
        (pbPredList env training m batches) := by
  cases training
  · exact ⟨_, processBatches_eval_eq env m batches h, rfl, rfl⟩
  · exact ⟨_, processBatches_train_eq env m batches h, rfl, rfl⟩

theorem pairCount_left_zero {a p : List Nat} {i j : Nat} (h : i ∉ a) :
    pairCount a p i j = 0 := by
  rw [pairCount, List.countP_eq_zero]
  intro x hx hx2
  simp only [Bool.and_eq_true, beq_iff_eq] at hx2
  exact h (hx2.1 ▸ (List.of_mem_zip hx).1)

theorem pairCount_right_zero {a p : List Nat} {i j : Nat} (h : j ∉ p) :
    pairCount a p i j = 0 := by
  rw [pairCount, List.countP_eq_zero]
  intro x hx hx2
  simp only [Bool.and_eq_true, beq_iff_eq] at hx2
  exact h (hx2.2 ▸ (List.of_mem_zip hx).2)

/-- C9: every call of `process_batches` on an empty dataset hits the
    division by zero in loss averaging; the fault is not caught, so it
    propagates to the caller and terminates the pass with no partial
    result. -/
theorem empty_dataset_division_error {μ φ : Type} (env : PBEnv μ φ) (m : μ)
    (training : Bool) :
    processBatches env m [] training = .error "ZeroDivisionError" := rfl

/-- C8: for every non-empty dataset, the loss reported by
    `process_batches` equals the running sum of per-batch summed losses
    divided by the total dataset size. -/
theorem loss_reported_average {μ φ : Type} (env : PBEnv μ φ) (m : μ)
    (batches : List (φ × List Nat)) (training : Bool) (h : dsSize batches ≠ 0) :
    ∃ out, processBatches env m batches training = .ok out ∧
      out.results.loss = (pbLossList env training m batches).sum / (dsSize batches : ℚ) := by
  obtain ⟨out, hout, hres, _⟩ := processBatches_ok env m batches training h
  exact ⟨out, hout, by simp [hres, mkResults]⟩

/-- Collaborator functions for the concrete witnesses: one example per
    batch, scores always `[1, 0]`, per-example loss `5 / 2`, optimizer
    update the identity. -/
def envU : PBEnv Unit Unit :=
  ⟨fun _ _ => [[1, 0]], fun _ t => t.map (fun _ => (5 : ℚ) / 2), fun m _ _ => m⟩

/-- One batch holding one hundred examples of label 0, so that the
    accumulated batch-loss sum is `100 * (5 / 2) = 250`. -/
def batchesC8 : List (Unit × List Nat) := [((), List.replicate 100 0)]

theorem loss_reported_average_witness :
    dsSize batchesC8 ≠ 0 ∧ dsSize batchesC8 = 100 ∧
    (pbLossList envU false () batchesC8).sum = 250 ∧
    ∃ out, processBatches envU () batchesC8 false = .ok out ∧
      out.results.loss = 5 / 2 := by
  have hsum : (pbLossList envU false () batchesC8).sum = 250 := by
    simp [pbLossList, envU, batchesC8, List.map_replicate, List.sum_replicate]
    norm_num
  refine ⟨by decide, by decide, hsum, ?_⟩
  obtain ⟨out, hout, hloss⟩ := loss_reported_average envU () batchesC8 false (by decide)
  refine ⟨out, hout, ?_⟩
  rw [hloss, hsum]
  norm_num [batchesC8, dsSize]

/-- C7: with `is_training = False`, `process_batches` performs no
    optimizer interaction (no gradient zeroing, backward pass or step),
    leaves the model unchanged, and returns only results and confusion
    matrix, whereas with `is_training = True` it returns model, results
    and confusion matrix. -/
theorem eval_mode_frame {μ φ : Type} (env : PBEnv μ φ) (m : μ)
    (batches : List (φ × List Nat)) (h : dsSize batches ≠ 0) :
    (pbRun env false m batches).model = m ∧
    (pbRun env false m batches).optCalls = 0 ∧
    (∃ r cm, processBatches env m batches false = .ok (.evalOut r cm)) ∧
    (∃ r cm, processBatches env m batches true =
      .ok (.trainOut (pbModelEnd env true m batches) r cm)) := by
  refine ⟨?_, ?_, ?_, ?_⟩
  · rw [pbRun_spec]
    exact pbModelEnd_eval env batches m
  · simp [pbRun_spec]
  · exact ⟨_, _, processBatches_eval_eq env m batches h⟩
  · exact ⟨_, _, processBatches_train_eq env m batches h⟩

/-- Two single-example batches, both with true label 0. -/
def batchesU : List (Unit × List Nat) := [((), [0]), ((), [0])]

theorem eval_mode_frame_witness :
    dsSize batchesU ≠ 0 ∧
    ((pbRun envU false () batchesU).model = () ∧
     (pbRun envU false () batchesU).optCalls = 0 ∧
     (∃ r cm, processBatches envU () batchesU false = .ok (.evalOut r cm)) ∧
     (∃ r cm, processBatches envU () batchesU true =
       .ok (.trainOut (pbModelEnd envU true () batchesU) r cm))) :=
  ⟨by decide, eval_mode_frame envU () batchesU (by decide)⟩

/-- C3: over every pass, `process_batches` accumulates all true and all
    predicted labels across the batches and computes each metric exactly
    once over the full concatenated label sequences; the reported macro
    F1 is the metric-library macro F1 of the concatenated arrays — which
    is not in general the average of per-batch F1 scores, as the final
    conjunct shows on a two-batch example. -/
theorem metrics_once_over_concatenation {μ φ : Type} (env : PBEnv μ φ) (m : μ)
    (batches : List (φ × List Nat)) (training : Bool) (h : dsSize batches ≠ 0) :
    (∃ out, processBatches env m batches training = .ok out ∧
      out.results.accuracy =
        accuracyScore (batches.flatMap (fun b => b.2)) (pbPredList env training m batches) ∧
      out.results.precision =
        precisionScore (batches.flatMap (fun b => b.2)) (pbPredList env training m batches) ∧
      out.results.recallQ =
        recallScore (batches.flatMap (fun b => b.2)) (pbPredList env training m batches) ∧
      out.results.f1 =
        f1Score (batches.flatMap (fun b => b.2)) (pbPredList env training m batches)) ∧
    f1Score ([0] ++ [1, 1, 0]) ([0] ++ [1, 0, 0]) ≠
      (f1Score [0] [0] + f1Score [1, 1, 0] [1, 0, 0]) / 2 := by
  refine ⟨?_, by
    norm_num +decide [f1Score, macroAvg, obsLabels, classF1, classPrecision, classRecall,
      classTP, List.countP_cons, List.countP_nil, List.count_cons, List.count_nil]⟩
  obtain ⟨out, hout, hres, _⟩ := processBatches_ok env m batches training h
  exact ⟨out, hout, by simp [hres, mkResults], by simp [hres, mkResults],
    by simp [hres, mkResults], by simp [hres, mkResults]⟩

theorem metrics_once_over_concatenation_witness :
    dsSize batchesU ≠ 0 ∧
    ((∃ out, processBatches envU () batchesU false = .ok out ∧
      out.results.accuracy =
        accuracyScore (batchesU.flatMap (fun b => b.2)) (pbPredList envU false () batchesU) ∧
      out.results.precision =
        precisionScore (batchesU.flatMap (fun b => b.2)) (pbPredList envU false () batchesU) ∧
      out.results.recallQ =
        recallScore (batchesU.flatMap (fun b => b.2)) (pbPredList envU false () batchesU) ∧
      out.results.f1 =
        f1Score (batchesU.flatMap (fun b => b.2)) (pbPredList envU false () batchesU)) ∧
    f1Score ([0] ++ [1, 1, 0]) ([0] ++ [1, 0, 0]) ≠
      (f1Score [0] [0] + f1Score [1, 1, 0] [1, 0, 0]) / 2) :=
  ⟨by decide, metrics_once_over_concatenation envU () batchesU false (by decide)⟩

/-- C6: the confusion matrix returned by `process_batches` is exactly
    2 by 2 with fixed label ordering `[0, 1]`; when label 1 is entirely
    absent from the accumulated labels, its row and its column are zero. -/
theorem confusion_matrix_fixed_2x2 {μ φ : Type} (env : PBEnv μ φ) (m : μ)
    (batches : List (φ × List Nat)) (training : Bool) (h : dsSize batches ≠ 0) :
    ∃ out, processBatches env m batches training = .ok out ∧
      out.cm = confusionMatrix (batches.flatMap (fun b => b.2))
        (pbPredList env training m batches) ∧
      out.cm.length = 2 ∧ (∀ row ∈ out.cm, row.length = 2) ∧
      ((1 ∉ batches.flatMap (fun b => b.2) ∧ 1 ∉ pbPredList env training m batches) →
        out.cm.getD 1 [] = [0, 0] ∧ (out.cm.getD 0 []).getD 1 0 = 0) := by
  obtain ⟨out, hout, _, hcm⟩ := processBatches_ok env m batches training h
  refine ⟨out, hout, hcm, by simp [hcm, confusionMatrix], ?_, ?_⟩
  · intro row hrow
    rw [hcm] at hrow
    simp only [confusionMatrix, List.mem_cons, List.mem_singleton] at hrow
    rcases hrow with rfl | rfl | hrow
    · rfl
    · rfl
    · cases hrow
  · intro ⟨ha, hp⟩
    constructor
    · simp [hcm, confusionMatrix, pairCount_left_zero ha]
    · simp [hcm, confusionMatrix, pairCount_right_zero hp]

theorem confusion_matrix_fixed_2x2_witness :
    dsSize batchesU ≠ 0 ∧
    ∃ out, processBatches envU () batchesU false = .ok out ∧
      out.cm.length = 2 ∧ (∀ row ∈ out.cm, row.length = 2) ∧
      out.cm.getD 1 [] = [0, 0] ∧ (out.cm.getD 0 []).getD 1 0 = 0 := by
  refine ⟨by decide, ?_⟩
  obtain ⟨out, hout, _, hlen, hrows, habs⟩ :=
    confusion_matrix_fixed_2x2 envU () batchesU false (by decide)
  have h10 : (1 : Nat) ∉ batchesU.flatMap (fun b => b.2) ∧
      (1 : Nat) ∉ pbPredList envU false () batchesU := by decide
  exact ⟨out, hout, hlen, hrows, (habs h10).1, (habs h10).2⟩

/-- The metric names, in the insertion order of the results dict of
    `process_batches` (the order `results.items()` yields them). -/
def metricNames : List String := ["loss", "accuracy", "precision", "recall", "f1"]

/-- Look up a metric value of a results dict by its key. -/
def Results.get (r : Results) (name : String) : ℚ :=
  if name = "loss" then r.loss
  else if name = "accuracy" then r.accuracy
  else if name = "precision" then r.precision
  else if name = "recall" then r.recallQ
  else r.f1

/-- The run-history mapping from metric key to its list of per-epoch
    values; a missing key is `none`. -/
def Hist := String → Option (List ℚ)

/-- Append a value to one history list; indexing a missing key raises an
    uncaught `KeyError` in Python. -/
def histAppend (h : Hist) (key : String) (v : ℚ) : Except String Hist :=
  match h key with
  | none => .error "KeyError"
  | some l => .ok (fun k => if k = key then some (l ++ [v]) else h k)

/-- The update-history loop of `train`: append every metric of a results
    dict under its prefixed key, in dict order. -/
def appendResults (h : Hist) (pre : String) (r : Results) : Except String Hist :=
  metricNames.foldlM (fun acc name => histAppend acc (pre ++ name) (Results.get r name)) h

/-- The per-epoch data the loop consumes: the train and validation
    results produced by the two `process_batches` passes of that epoch. -/
structure EpochData where
  trainRes : Results
  valRes : Results

/-- The loop state of `train`: the best validation F1 so far, the run
    history, and the epochs at which a best checkpoint and a periodic
    checkpoint (with its plot regeneration) have been saved. -/
structure TrainState where
  best : ℚ
  hist : Hist
  bestSaves : List Nat
  periodicSaves : List Nat

/-- One epoch of `train` after the two passes: update the run history
    under the `train_`/`val_` keys, save a best checkpoint exactly when
    the validation F1 strictly exceeds the best so far, and save a
    periodic checkpoint and regenerate plots exactly when `log_every` is
    nonzero and divides the epoch index. -/
def trainEpoch (logEvery : Nat) (data : Nat → EpochData) (st : TrainState)
    (ep : Nat) : Except String TrainState := do
  let h1 ← appendResults st.hist "train_" (data ep).trainRes
  let h2 ← appendResults h1 "val_" (data ep).valRes
  let f1v := (data ep).valRes.f1
  return ⟨if f1v > st.best then f1v else st.best, h2,
    if f1v > st.best then st.bestSaves ++ [ep] else st.bestSaves,
    if logEvery ≠ 0 ∧ ep % logEvery = 0 then st.periodicSaves ++ [ep]
    else st.periodicSaves⟩

/-- The epoch indices `range(start_epoch, num_epochs + 1)`. -/
def epochList (startEpoch numEpochs : Nat) : List Nat :=
  List.range' startEpoch (numEpochs + 1 - startEpoch)

/-- The epoch loop of `train`, with `best_val_f1` initialized to 0 and no
    saves performed yet. -/
def trainLoop (logEvery startEpoch numEpochs : Nat) (data : Nat → EpochData)
    (h0 : Hist) : Except String TrainState :=
  (epochList startEpoch numEpochs).foldlM (trainEpoch logEvery data) ⟨0, h0, [], []⟩

/-- The epochs at which the best-checkpoint rule fires, as a direct
    recursion threading the running best value. -/
def bestSaveList (f1 : Nat → ℚ) : List Nat → ℚ → List Nat
  | [], _ => []
  | e :: es, b => (if f1 e > b then [e] else []) ++ bestSaveList f1 es (max b (f1 e))

/-- The ten history keys `train` appends to. -/
def allHistKeys : List String :=
  metricNames.map (fun n => "train_" ++ n) ++ metricNames.map (fun n => "val_" ++ n)

/-- Well-formedness of a run history: all ten keys are present. -/
def HistWF (h : Hist) : Prop := ∀ k ∈ allHistKeys, (h k).isSome = true

instance (h : Hist) : Decidable (HistWF h) :=
  inferInstanceAs (Decidable (∀ k ∈ allHistKeys, (h k).isSome = true))

/-- Length of one history list (zero when the key is missing). -/
def histLen (h : Hist) (k : String) : Nat := ((h k).getD []).length

theorem histAppend_some {h : Hist} {key : String} (v : ℚ)
    (hk : (h key).isSome = true) :
    ∃ h2, histAppend h key v = .ok h2 ∧
      (∀ k, (h2 k).isSome = (h k).isSome) ∧
      (∀ k, histLen h2 k = histLen h k + if k = key then 1 else 0) := by
  obtain ⟨l, hl⟩ := Option.isSome_iff_exists.mp hk
  refine ⟨fun k => if k = key then some (l ++ [v]) else h k, ?_, ?_, ?_⟩
  · unfold histAppend
    rw [hl]
  · intro k
    by_cases hkk : k = key
    · subst hkk; simp [hl]
    · simp [hkk]
  · intro k
    by_cases hkk : k = key
    · subst hkk; simp [histLen, hl]
    · simp [histLen, hkk]

theorem appendResults_fold_ok (pre : String) (r : Results) :
    ∀ (names : List String) (h : Hist),
      (∀ n ∈ names, (h (pre ++ n)).isSome = true) →
      ∃ h2, names.foldlM
          (fun acc name => histAppend acc (pre ++ name) (Results.get r name)) h = .ok h2 ∧
        (∀ k, (h2 k).isSome = (h k).isSome) ∧
        (∀ k, histLen h2 k = histLen h k + (names.map (fun n => pre ++ n)).count k) := by
  intro names
  induction names with
  | nil =>
    intro h _
    exact ⟨h, rfl, fun k => rfl, fun k => by simp⟩
  | cons nm ns ih =>
    intro h hall
    obtain ⟨h1, e1, s1, l1⟩ := histAppend_some (Results.get r nm) (hall nm (by simp))
    obtain ⟨h2, e2, s2, l2⟩ := ih h1 (fun n2 hn2 => by
      rw [s1]; exact hall n2 (List.mem_cons_of_mem _ hn2))
    refine ⟨h2, ?_, fun k => (s2 k).trans (s1 k), ?_⟩
    · rw [List.foldlM_cons, e1]
      exact e2
    · intro k
      rw [l2 k, l1 k, List.map_cons, List.count_cons]
      by_cases hkk : k = pre ++ nm
      · simp [hkk]
        omega
      · simp [hkk, Ne.symm hkk]

theorem appendResults_fold_err (pre : String) (r : Results) :
    ∀ (names : List String) (h : Hist) (nm : String), nm ∈ names →
      (h (pre ++ nm)).isSome = false →
      names.foldlM
        (fun acc name => histAppend acc (pre ++ name) (Results.get r name)) h =
          .error "KeyError" := by
  intro names
  induction names with
  | nil => intro h nm hmem; cases hmem
  | cons m ms ih =>
    intro h nm hmem hnone
    rw [List.foldlM_cons]
    cases hk : h (pre ++ m) with
    | none =>
      show (histAppend h (pre ++ m) (Results.get r m)) >>= _ = _
      unfold histAppend
      rw [hk]
      rfl
    | some l =>
      have hsome : (h (pre ++ m)).isSome = true := by rw [hk]; rfl
      obtain ⟨h1, e1, s1, _⟩ := histAppend_some (Results.get r m) hsome
      rw [e1]
      show ms.foldlM _ h1 = _
      rcases List.mem_cons.mp hmem with rfl | hmem2
      · rw [hk] at hnone
        cases hnone
      · exact ih h1 nm hmem2 (by rw [s1]; exact hnone)

theorem appendResults_fold_dich (pre : String) (r : Results) :
    ∀ (names : List String) (h : Hist),
      names.foldlM
        (fun acc name => histAppend acc (pre ++ name) (Results.get r name)) h =
          .error "KeyError" ∨
      ∃ h2, names.foldlM
          (fun acc name => histAppend acc (pre ++ name) (Results.get r name)) h =
            .ok h2 ∧
        (∀ k, (h2 k).isSome = (h k).isSome) := by
  intro names
  induction names with
  | nil => intro h; exact .inr ⟨h, rfl, fun k => rfl⟩
  | cons m ms ih =>
    intro h
    cases hk : h (pre ++ m) with
    | none =>
      left
      rw [List.foldlM_cons]
      show (histAppend h (pre ++ m) (Results.get r m)) >>= _ = _
      unfold histAppend
      rw [hk]
      rfl
    | some l =>
      have hsome : (h (pre ++ m)).isSome = true := by rw [hk]; rfl
      obtain ⟨h1, e1, s1, _⟩ := histAppend_some (Results.get r m) hsome
      rcases ih h1 with herr | ⟨h2, e2, s2⟩
      · left
        rw [List.foldlM_cons, e1]
        exact herr
      · right
        refine ⟨h2, ?_, fun k => (s2 k).trans (s1 k)⟩
        rw [List.foldlM_cons, e1]
        exact e2

theorem appendResults_ok {h : Hist} (pre : String) (r : Results)
    (hall : ∀ n ∈ metricNames, (h (pre ++ n)).isSome = true) :
    ∃ h2, appendResults h pre r = .ok h2 ∧
      (∀ k, (h2 k).isSome = (h k).isSome) ∧
      (∀ k, histLen h2 k = histLen h k + (metricNames.map (fun n => pre ++ n)).count k) :=
  appendResults_fold_ok pre r metricNames h hall

theorem appendResults_err {h : Hist} (pre : String) (r : Results) {nm : String}
    (hmem : nm ∈ metricNames) (hnone : (h (pre ++ nm)).isSome = false) :
    appendResults h pre r = .error "KeyError" :=
  appendResults_fold_err pre r metricNames h nm hmem hnone

theorem appendResults_dich {h : Hist} (pre : String) (r : Results) :
    appendResults h pre r = .error "KeyError" ∨
    ∃ h2, appendResults h pre r = .ok h2 ∧
      (∀ k, (h2 k).isSome = (h k).isSome) :=
  appendResults_fold_dich pre r metricNames h

theorem mem_train_key {n : String} (hn : n ∈ metricNames) :
    ("train_" ++ n) ∈ allHistKeys :=
  List.mem_append_left _ (List.mem_map_of_mem _ hn)

theorem mem_val_key {n : String} (hn : n ∈ metricNames) :
    ("val_" ++ n) ∈ allHistKeys :=
  List.mem_append_right _ (List.mem_map_of_mem _ hn)

theorem count_keys_one :
    ∀ k ∈ allHistKeys,
      (metricNames.map (fun n => "train_" ++ n)).count k +
        (metricNames.map (fun n => "val_" ++ n)).count k = 1 := by decide

theorem trainEpoch_ok (logEvery : Nat) (data : Nat → EpochData) (st : TrainState)
    (ep : Nat) (hwf : HistWF st.hist) :
    ∃ st2, trainEpoch logEvery data st ep = .ok st2 ∧
      HistWF st2.hist ∧
      (∀ k ∈ allHistKeys, histLen st2.hist k = histLen st.hist k + 1) ∧
      st2.best = max st.best (data ep).valRes.f1 ∧
      st2.bestSaves = st.bestSaves ++
        (if (data ep).valRes.f1 > st.best then [ep] else []) ∧
      st2.periodicSaves = st.periodicSaves ++
        (if logEvery ≠ 0 ∧ ep % logEvery = 0 then [ep] else []) := by
  obtain ⟨h1, e1, s1, l1⟩ := appendResults_ok (h := st.hist) "train_"
    (data ep).trainRes (fun n hn => hwf _ (mem_train_key hn))
  obtain ⟨h2, e2, s2, l2⟩ := appendResults_ok (h := h1) "val_"
    (data ep).valRes (fun n hn => by rw [s1]; exact hwf _ (mem_val_key hn))
  refine ⟨⟨if (data ep).valRes.f1 > st.best then (data ep).valRes.f1 else st.best, h2,
    if (data ep).valRes.f1 > st.best then st.bestSaves ++ [ep] else st.bestSaves,
    if logEvery ≠ 0 ∧ ep % logEvery = 0 then st.periodicSaves ++ [ep]
    else st.periodicSaves⟩, ?_, ?_, ?_, ?_, ?_, ?_⟩
  · show (appendResults st.hist "train_" (data ep).trainRes) >>= _ = _
    rw [e1]
    show (appendResults h1 "val_" (data ep).valRes) >>= _ = _
    rw [e2]
    rfl
  · intro k hk
    show (h2 k).isSome = true
    rw [s2, s1]
    exact hwf k hk
  · intro k hk
    show histLen h2 k = _
    rw [l2 k, l1 k]
    have := count_keys_one k hk
    omega
  · show (if (data ep).valRes.f1 > st.best then (data ep).valRes.f1 else st.best) = _
    by_cases hgt : (data ep).valRes.f1 > st.best
    · rw [if_pos hgt, max_eq_right hgt.le]
    · rw [if_neg hgt, max_eq_left (not_lt.mp hgt)]
  · show (if (data ep).valRes.f1 > st.best then st.bestSaves ++ [ep] else st.bestSaves) = _
    by_cases hgt : (data ep).valRes.f1 > st.best <;> simp [hgt]
  · show (if logEvery ≠ 0 ∧ ep % logEvery = 0 then st.periodicSaves ++ [ep]
      else st.periodicSaves) = _
    by_cases hc : logEvery ≠ 0 ∧ ep % logEvery = 0 <;> simp [hc]

theorem trainEpoch_err (logEvery : Nat) (data : Nat → EpochData) (st : TrainState)
    (ep : Nat) (k : String) (hk : k ∈ allHistKeys) (hnone : st.hist k = none) :
    trainEpoch logEvery data st ep = .error "KeyError" := by
  have hfalse : (st.hist k).isSome = false := by rw [hnone]; rfl
  rcases List.mem_append.mp hk with hmem | hmem
  · obtain ⟨nm, hnm, hkeq⟩ := List.mem_map.mp hmem
    subst hkeq
    have herr := appendResults_err (h := st.hist) "train_" (data ep).trainRes hnm hfalse
    show (appendResults st.hist "train_" (data ep).trainRes) >>= _ = _
    rw [herr]
    rfl
  · obtain ⟨nm, hnm, hkeq⟩ := List.mem_map.mp hmem
    subst hkeq
    rcases appendResults_dich (h := st.hist) "train_" (data ep).trainRes with
      herr | ⟨h1, e1, s1⟩
    · show (appendResults st.hist "train_" (data ep).trainRes) >>= _ = _
      rw [herr]
      rfl
    · have herr2 := appendResults_err (h := h1) "val_" (data ep).valRes hnm
        (by rw [s1]; exact hfalse)
      show (appendResults st.hist "train_" (data ep).trainRes) >>= _ = _
      rw [e1]
      show (appendResults h1 "val_" (data ep).valRes) >>= _ = _
      rw [herr2]
      rfl

theorem trainFold_spec (logEvery : Nat) (data : Nat → EpochData) :
    ∀ (es : List Nat) (st : TrainState), HistWF st.hist →
      ∃ st2, es.foldlM (trainEpoch logEvery data) st = .ok st2 ∧
        HistWF st2.hist ∧
        (∀ k ∈ allHistKeys, histLen st2.hist k = histLen st.hist k + es.length) ∧
        st2.best = (es.map (fun e => (data e).valRes.f1)).foldl max st.best ∧
        st2.bestSaves = st.bestSaves ++
          bestSaveList (fun e => (data e).valRes.f1) es st.best ∧
        st2.periodicSaves = st.periodicSaves ++
          es.filter (fun e => decide (logEvery ≠ 0) && decide (e % logEvery = 0)) := by
  intro es
  induction es with
  | nil =>
    intro st hwf
    exact ⟨st, rfl, hwf, fun k _ => by simp, rfl, by simp [bestSaveList], by simp⟩
  | cons e es ih =>
    intro st hwf
    obtain ⟨st1, e1, hwf1, hlen1, hbest1, hbsave1, hpsave1⟩ :=
      trainEpoch_ok logEvery data st e hwf
    obtain ⟨st2, e2, hwf2, hlen2, hbest2, hbsave2, hpsave2⟩ := ih st1 hwf1
    refine ⟨st2, ?_, hwf2, ?_, ?_, ?_, ?_⟩
    · rw [List.foldlM_cons, e1]
      exact e2
    · intro k hk
      rw [hlen2 k hk, hlen1 k hk, List.length_cons]
      omega
    · rw [hbest2, hbest1, List.map_cons, List.foldl_cons]
    · rw [hbsave2, hbsave1, hbest1]
      show _ = _ ++ ((if (data e).valRes.f1 > st.best then [e] else []) ++ _)
      rw [List.append_assoc]
    · rw [hpsave2, hpsave1, List.filter_cons]
      by_cases hc : logEvery ≠ 0 ∧ e % logEvery = 0
      · simp only [if_pos hc, List.append_assoc]
        have : (decide (logEvery ≠ 0) && decide (e % logEvery = 0)) = true := by
          simp [hc.1, hc.2]
        rw [this]
        simp
      · simp only [if_neg hc, List.append_assoc]
        have : (decide (logEvery ≠ 0) && decide (e % logEvery = 0)) = false := by
          rcases not_and_or.mp hc with hne | hne <;> simp [hne]
        rw [this]
        simp

theorem trainLoop_spec (logEvery s n : Nat) (data : Nat → EpochData) (h0 : Hist)
    (hwf : HistWF h0) :
    ∃ st, trainLoop logEvery s n data h0 = .ok st ∧
      HistWF st.hist ∧
      (∀ k ∈ allHistKeys, histLen st.hist k = histLen h0 k + (epochList s n).length) ∧
      st.best = ((epochList s n).map (fun e => (data e).valRes.f1)).foldl max 0 ∧
      st.bestSaves = bestSaveList (fun e => (data e).valRes.f1) (epochList s n) 0 ∧
      st.periodicSaves = (epochList s n).filter
        (fun e => decide (logEvery ≠ 0) && decide (e % logEvery = 0)) := by
  obtain ⟨st, he, hwf2, hlen, hbest, hbsave, hpsave⟩ :=
    trainFold_spec logEvery data (epochList s n) ⟨0, h0, [], []⟩ hwf
  exact ⟨st, he, hwf2, hlen, hbest, by simpa using hbsave, by simpa using hpsave⟩

theorem mem_ite_singleton (c : Prop) [Decidable c] (x y : Nat) :
    y ∈ (if c then [x] else []) ↔ c ∧ y = x := by
  by_cases hc : c <;> simp [hc]

theorem foldl_max_range_split (f1 : Nat → ℚ) (s ep : Nat) (b : ℚ)
    (hle : s + 1 ≤ ep) :
    ((List.range' s (ep - s)).map f1).foldl max b =
      ((List.range' (s + 1) (ep - (s + 1))).map f1).foldl max (max b (f1 s)) := by
  have h1 : ep - s = (ep - (s + 1)) + 1 := by omega
  rw [h1, List.range'_succ, List.map_cons, List.foldl_cons]

theorem mem_bestSaveList_range (f1 : Nat → ℚ) :
    ∀ (m s : Nat) (b : ℚ) (ep : Nat),
      ep ∈ bestSaveList f1 (List.range' s m) b ↔
        (ep ∈ List.range' s m ∧
          f1 ep > ((List.range' s (ep - s)).map f1).foldl max b) := by
  intro m
  induction m with
  | zero =>
    intro s b ep
    simp [bestSaveList]
  | succ m ih =>
    intro s b ep
    rw [List.range'_succ]
    show ep ∈ (if f1 s > b then [s] else []) ++
        bestSaveList f1 (List.range' (s + 1) m) (max b (f1 s)) ↔ _
    rw [List.mem_append, mem_ite_singleton, ih (s + 1) (max b (f1 s)) ep,
      List.mem_cons]
    constructor
    · rintro (⟨hc, rfl⟩ | ⟨hmem, hgt⟩)
      · refine ⟨Or.inl rfl, ?_⟩
        simpa [Nat.sub_self] using hc
      · have hle : s + 1 ≤ ep := (List.mem_range'_1.mp hmem).1
        exact ⟨Or.inr hmem, by rw [foldl_max_range_split f1 s ep b hle]; exact hgt⟩
    · rintro ⟨hor, hgt⟩
      rcases hor with rfl | hmem
      · left
        refine ⟨?_, rfl⟩
        simpa [Nat.sub_self] using hgt
      · right
        have hle : s + 1 ≤ ep := (List.mem_range'_1.mp hmem).1
        exact ⟨hmem, by rw [← foldl_max_range_split f1 s ep b hle]; exact hgt⟩

/-- The validation F1 values 0.3, 0.5, 0.4, 0.6 of the claimed scenario,
    as reduced rationals. -/
def f1SeqC2 : List ℚ :=
  [⟨3, 10, by decide, by decide⟩, ⟨1, 2, by decide, by decide⟩,
   ⟨2, 5, by decide, by decide⟩, ⟨3, 5, by decide, by decide⟩]

/-- A results dict whose every entry is the given value. -/
def resOf (q : ℚ) : Results := ⟨q, q, q, q, q⟩

/-- Per-epoch data realizing the claimed validation F1 sequence from
    epoch 1 on. -/
def dataC2 : Nat → EpochData := fun e => ⟨resOf 0, resOf (f1SeqC2.getD (e - 1) 0)⟩

/-- A run history with all ten keys present and empty. -/
def histZero : Hist := fun k => if k ∈ allHistKeys then some [] else none

/-- A run history with every key missing. -/
def histNone : Hist := fun _ => none

/-- C2: a best checkpoint is saved at exactly those epochs whose
    validation F1 strictly exceeds the running maximum of all previous
    validation F1 values, the running maximum being initialized to 0; in
    particular, for the validation F1 sequence 0.3, 0.5, 0.4, 0.6
    starting at epoch 1, saves are triggered exactly at epochs 1, 2
    and 4. -/
theorem train_best_checkpoint_rule :
    (∀ (logEvery s n : Nat) (data : Nat → EpochData) (h0 : Hist), HistWF h0 →
      ∃ st, trainLoop logEvery s n data h0 = .ok st ∧
        ∀ ep, ep ∈ st.bestSaves ↔
          (ep ∈ epochList s n ∧
            (data ep).valRes.f1 >
              ((List.range' s (ep - s)).map
                (fun e => (data e).valRes.f1)).foldl max 0)) ∧
    (trainLoop 0 1 4 dataC2 histZero).map TrainState.bestSaves = .ok [1, 2, 4] := by
  constructor
  · intro logEvery s n data h0 hwf
    obtain ⟨st, he, _, _, _, hbsave, _⟩ := trainLoop_spec logEvery s n data h0 hwf
    refine ⟨st, he, ?_⟩
    intro ep
    rw [hbsave]
    exact mem_bestSaveList_range (fun e => (data e).valRes.f1) (n + 1 - s) s 0 ep
  · decide

theorem train_best_checkpoint_rule_witness :
    HistWF histZero ∧
    ∃ st, trainLoop 0 1 4 dataC2 histZero = .ok st ∧
      ∀ ep, ep ∈ st.bestSaves ↔
        (ep ∈ epochList 1 4 ∧
          (dataC2 ep).valRes.f1 >
            ((List.range' 1 (ep - 1)).map
              (fun e => (dataC2 e).valRes.f1)).foldl max 0) :=
  ⟨by decide, train_best_checkpoint_rule.1 0 1 4 dataC2 histZero (by decide)⟩

/-- C5: a uniquely named per-epoch checkpoint is saved and plots are
    regenerated exactly at epochs that are exact multiples of a nonzero
    `log_every`; `log_every = 0` disables periodic checkpointing entirely
    and leaves best-checkpoint saving unaffected; with `log_every = 5`
    over epochs 1..12, periodic saves fire at epochs 5 and 10 only. -/
theorem train_periodic_checkpoint_rule :
    (∀ (logEvery s n : Nat) (data : Nat → EpochData) (h0 : Hist), HistWF h0 →
      ∃ st, trainLoop logEvery s n data h0 = .ok st ∧
        st.periodicSaves = (epochList s n).filter
          (fun e => decide (logEvery ≠ 0) && decide (e % logEvery = 0)) ∧
        (logEvery = 0 → st.periodicSaves = []) ∧
        (∀ logEvery2, ∃ st2, trainLoop logEvery2 s n data h0 = .ok st2 ∧
          st2.bestSaves = st.bestSaves)) ∧
    (trainLoop 5 1 12 dataC2 histZero).map TrainState.periodicSaves = .ok [5, 10] := by
  constructor
  · intro logEvery s n data h0 hwf
    obtain ⟨st, he, _, _, _, hbsave, hpsave⟩ := trainLoop_spec logEvery s n data h0 hwf
    refine ⟨st, he, hpsave, ?_, ?_⟩
    · intro h0eq
      subst h0eq
      rw [hpsave]
      simp
    · intro logEvery2
      obtain ⟨st2, he2, _, _, _, hbsave2, _⟩ := trainLoop_spec logEvery2 s n data h0 hwf
      exact ⟨st2, he2, by rw [hbsave2, hbsave]⟩
  · decide

theorem train_periodic_checkpoint_rule_witness :
    HistWF histZero ∧
    ∃ st, trainLoop 5 1 12 dataC2 histZero = .ok st ∧
      st.periodicSaves = (epochList 1 12).filter
        (fun e => decide ((5 : Nat) ≠ 0) && decide (e % 5 = 0)) ∧
      ((5 : Nat) = 0 → st.periodicSaves = []) ∧
      (∀ logEvery2, ∃ st2, trainLoop logEvery2 1 12 dataC2 histZero = .ok st2 ∧
        st2.bestSaves = st.bestSaves) :=
  ⟨by decide, train_periodic_checkpoint_rule.1 5 1 12 dataC2 histZero (by decide)⟩

/-- C10: each completed epoch appends exactly one value to each of the
    ten history lists keyed `train_`/`val_` loss, accuracy, precision,
    recall and f1, so after k epochs each list has grown by exactly k
    elements; if any of the ten keys is missing from the history, the
    first append raises a `KeyError` that aborts the run. -/
theorem history_growth_and_keyerror :
    (∀ (logEvery s n : Nat) (data : Nat → EpochData) (h0 : Hist), HistWF h0 →
      ∃ st, trainLoop logEvery s n data h0 = .ok st ∧
        ∀ k ∈ allHistKeys, histLen st.hist k = histLen h0 k + (epochList s n).length) ∧
    (∀ (logEvery s n : Nat) (data : Nat → EpochData) (h0 : Hist) (k : String),
      k ∈ allHistKeys → h0 k = none → s ≤ n →
      trainLoop logEvery s n data h0 = .error "KeyError") := by
  constructor
  · intro logEvery s n data h0 hwf
    obtain ⟨st, he, _, hlen, _, _, _⟩ := trainLoop_spec logEvery s n data h0 hwf
    exact ⟨st, he, hlen⟩
  · intro logEvery s n data h0 k hk hnone hsn
    have hlen1 : n + 1 - s = (n - s) + 1 := by omega
    rw [trainLoop, epochList, hlen1, List.range'_succ, List.foldlM_cons]
    rw [trainEpoch_err logEvery data ⟨0, h0, [], []⟩ s k hk hnone]
    rfl

theorem history_growth_and_keyerror_witness :
    (HistWF histZero ∧
      ∃ st, trainLoop 0 1 2 dataC2 histZero = .ok st ∧
        ∀ k ∈ allHistKeys,
          histLen st.hist k = histLen histZero k + (epochList 1 2).length) ∧
    ("train_loss" ∈ allHistKeys ∧ histNone "train_loss" = none ∧ (1 : Nat) ≤ 2 ∧
      trainLoop 0 1 2 dataC2 histNone = .error "KeyError") :=
  ⟨⟨by decide, history_growth_and_keyerror.1 0 1 2 dataC2 histZero (by decide)⟩,
   ⟨by decide, rfl, by decide, history_growth_and_keyerror.2 0 1 2 dataC2 histNone
     "train_loss" (by decide) rfl (by decide)⟩⟩

end ABCNN
